import Mathlib

/-!
# Verification of the amltk task/event dispatch core

A shallow embedding of `src/amltk/scheduling/task.py` (class `Task`):
submission (`Task.__call__`), the completion finalizer
(`Task._process_future`), `Task.copy`, `Task.n_running`, and the plugin
pre-submission chain, together with theorems settling the specification
claims about them.

Type parameters: `F` models the Python callable being submitted, `A` the
positional arguments tuple, `K` the keyword arguments, `H` a future handle,
`S` the scheduler reference, `V` a result value, `E` an exception value.
Side effects of the Python code (queue mutation, event emission, backend
calls, callback registration) are made explicit as a returned action trace,
in the order the source performs them.
-/

namespace Amltk

/-- A plugin, as consumed by `Task.__call__`: its `pre_submit` hook receives
the `(function, args, kwargs)` triple and returns `none` (a veto) or a
replacement triple (`task_plugin.TaskPlugin.pre_submit`). -/
structure Plugin (F A K : Type) where
  name : String
  preSubmit : F → A → K → Option (F × A × K)

/-- The `Task` state: embeds the fields of `Task.__init__` that the claims
depend on. `uuid` models the `uuid4()` value drawn at construction;
`scheduler` is the stored scheduler reference; `queue` is the list of
in-flight futures. -/
structure Task (F A K H S : Type) where
  name : String
  uuid : Nat
  function : F
  scheduler : S
  plugins : List (Plugin F A K)
  queue : List H

/-- Models `Task.__init__`: `uuid` is drawn fresh (here passed in by the
caller, standing for `uuid4()`), the queue starts empty, the given plugins
are stored in order. -/
def Task.init {F A K H S : Type} (function : F) (scheduler : S) (name : String)
    (plugins : List (Plugin F A K)) (freshUuid : Nat) : Task F A K H S :=
  { name := name, uuid := freshUuid, function := function, scheduler := scheduler,
    plugins := plugins, queue := [] }

/-- Models `UniqueRef(f"{self.name}-{self.uuid}")`: the per-instance event
namespace, determined by the name together with the fresh uuid. The pair is
kept unconcatenated so that distinct uuids give distinct refs. -/
def Task.uniqueRef {F A K H S : Type} (t : Task F A K H S) : String × Nat :=
  (t.name, t.uuid)

/-- Models `Task.copy`: a new task built by `Task.__init__` from the same
function, scheduler and name, with `p.copy()` applied to each plugin
(`pcopy` stands for `TaskPlugin.copy`, whose source is outside the excerpt)
and a fresh uuid. -/
def Task.copy {F A K H S : Type} (t : Task F A K H S)
    (pcopy : Plugin F A K → Plugin F A K) (freshUuid : Nat) : Task F A K H S :=
  Task.init t.function t.scheduler t.name (t.plugins.map pcopy) freshUuid

/-- Modelled from the spec: the Emitter (`amltk/events.py`, not in the
excerpt) routes a callback to an emission exactly when the subscription's
namespace equals the emitting instance's namespace ("namespaced by a unique
reference generated per Task instance"). A subscription records the
namespace it was registered under. -/
structure Subscription where
  ref : String × Nat

/-- Modelled from the spec: a subscription fires for an emission iff the
emitting task's unique reference matches the subscription's namespace. -/
def firesFor (sub : Subscription) (emitterRef : String × Nat) : Prop :=
  sub.ref = emitterRef

instance (sub : Subscription) (r : String × Nat) : Decidable (firesFor sub r) := by
  unfold firesFor; infer_instance

/-- The threading of `(fn, args, kwargs)` through the plugin loop of
`Task.__call__` (lines 241-251): each plugin's `pre_submit` receives the
triple produced by the previous one; a `None` return (veto) short-circuits
the whole chain to `none`. -/
def pluginChain {F A K : Type} : List (Plugin F A K) → F → A → K → Option (F × A × K)
  | [], fn, args, kwargs => some (fn, args, kwargs)
  | p :: ps, fn, args, kwargs =>
    match p.preSubmit fn args kwargs with
    | none => none
    | some (fn2, a2, k2) => pluginChain ps fn2 a2 k2

/-- The list of `(fn, args, kwargs)` triples actually passed to successive
plugins by the loop of `Task.__call__`, in consultation order; the list
stops after the plugin that vetoes. -/
def pluginConsults {F A K : Type} : List (Plugin F A K) → F → A → K → List (F × A × K)
  | [], _, _, _ => []
  | p :: ps, fn, args, kwargs =>
    (fn, args, kwargs) ::
      match p.preSubmit fn args kwargs with
      | none => []
      | some (fn2, a2, k2) => pluginConsults ps fn2 a2 k2

/-- One observable step of the submission path of `Task.__call__` after the
plugin chain: the backend call (`self.scheduler.submit`), the queue append,
the `submitted` emission, and the registration of the completion hook
(`future.add_done_callback(self._process_future)`). -/
inductive SubAction (F A K H : Type) where
  | backendCall (fn : F) (args : A) (kwargs : K)
  | queueAppend (h : H)
  | emitSubmitted (h : H) (args : A) (kwargs : K)
  | registerHook (h : H)
deriving DecidableEq

/-- The outcome of `Task.__call__`: the returned value, the task state after
the call, the plugin consultations made, and the trace of submission
actions in source order. -/
structure CallResult (F A K H S : Type) where
  ret : Option H
  task : Task F A K H S
  consulted : List (F × A × K)
  trace : List (SubAction F A K H)

/-- Models `Task.__call__` (= `Task.submit`), lines 236-276 of the source:
run the plugin chain on `(self.function, args, kwargs)`; on veto return
`None` with nothing done; otherwise call `self.scheduler.submit` with the
threaded triple (`schedSubmit` stands for the scheduler's submit method);
on backend rejection return `None` with nothing further done; on acceptance
append the future to the queue, emit `submitted(future, *args, **kwargs)`
with the threaded arguments, register the completion hook, and return the
future. -/
def Task.call {F A K H S : Type} (t : Task F A K H S)
    (schedSubmit : S → F → A → K → Option H) (args : A) (kwargs : K) :
    CallResult F A K H S :=
  let consulted := pluginConsults t.plugins t.function args kwargs
  match pluginChain t.plugins t.function args kwargs with
  | none => ⟨none, t, consulted, []⟩
  | some (fn, a, k) =>
    match schedSubmit t.scheduler fn a k with
    | none => ⟨none, t, consulted, [SubAction.backendCall fn a k]⟩
    | some future =>
      ⟨some future,
       { t with queue := t.queue ++ [future] },
       consulted,
       [SubAction.backendCall fn a k,
        SubAction.queueAppend future,
        SubAction.emitSubmitted future a k,
        SubAction.registerHook future]⟩

/-- Models `Task.submit`, which simply delegates to `Task.__call__`. -/
def Task.submit {F A K H S : Type} (t : Task F A K H S)
    (schedSubmit : S → F → A → K → Option H) (args : A) (kwargs : K) :
    CallResult F A K H S :=
  Task.call t schedSubmit args kwargs

/-- The terminal state of a future as interrogated by `_process_future`:
`future.cancelled()`, `future.exception()`, `future.result()`. -/
inductive FutureStatus (V E : Type) where
  | cancelled
  | error (e : E)
  | value (v : V)

/-- One observable step of the finalizer `Task._process_future`: the queue
removal and the four possible event emissions. -/
inductive FinAction (H V E : Type) where
  | queueRemove (h : H)
  | emitDone (h : H)
  | emitCancelled (h : H)
  | emitReturned (h : H) (v : V)
  | emitException (h : H) (e : E)
deriving DecidableEq

/-- Whether a finalizer action is an event emission (anything but the queue
removal). -/
def FinAction.isEmit {H V E : Type} : FinAction H V E → Bool
  | FinAction.queueRemove _ => false
  | _ => true

/-- Python `list.remove`: delete the first occurrence of `h`; leaves the
list unchanged when `h` is absent (the caller raises in that case). -/
def removeFirst {H : Type} [DecidableEq H] : List H → H → List H
  | [], _ => []
  | x :: xs, h => if x = h then xs else x :: removeFirst xs h

/-- Models `Task._process_future` (lines 278-295): remove the future from
the queue — raising (`Except.error`) when it is absent, in which case
nothing is emitted; then, if the future was cancelled emit `cancelled` and
stop; otherwise emit `done`, then `exception(future, error)` when the
future carries an error, else `returned(future, result)`. The action trace
lists the steps in source order. -/
def Task.processFuture {F A K H S V E : Type} [DecidableEq H] (t : Task F A K H S)
    (future : H) (status : H → FutureStatus V E) :
    Except String (Task F A K H S × List (FinAction H V E)) :=
  if future ∈ t.queue then
    let t2 : Task F A K H S := { t with queue := removeFirst t.queue future }
    match status future with
    | FutureStatus.cancelled =>
      Except.ok (t2, [FinAction.queueRemove future, FinAction.emitCancelled future])
    | FutureStatus.error e =>
      Except.ok (t2, [FinAction.queueRemove future, FinAction.emitDone future,
                      FinAction.emitException future e])
    | FutureStatus.value v =>
      Except.ok (t2, [FinAction.queueRemove future, FinAction.emitDone future,
                      FinAction.emitReturned future v])
  else
    Except.error "future not found in task queue"

/-- Models `Task.n_running`: the number of queued futures that are not yet
done (`sum(1 for f in self.queue if not f.done())`); `isDone` stands for
`Future.done`. -/
def Task.nRunning {F A K H S : Type} (t : Task F A K H S) (isDone : H → Bool) : Nat :=
  (t.queue.filter (fun f => !(isDone f))).length

/-- A lifecycle event for a handle, as named by the spec: `submitted`,
`done`, `cancelled`, `returned`, `exception`. -/
inductive TaskEvent (A K H V E : Type) where
  | submitted (h : H) (args : A) (kwargs : K)
  | done (h : H)
  | cancelled (h : H)
  | returned (h : H) (v : V)
  | exception (h : H) (e : E)
deriving DecidableEq

/-- The lifecycle events emitted along a submission trace (only the
`submitted` emission qualifies). -/
def subEvents {F A K H V E : Type} (tr : List (SubAction F A K H)) :
    List (TaskEvent A K H V E) :=
  tr.filterMap fun a =>
    match a with
    | SubAction.emitSubmitted h x y => some (TaskEvent.submitted h x y)
    | _ => none

/-- The lifecycle events emitted along a finalizer trace. -/
def finEvents {A K H V E : Type} (tr : List (FinAction H V E)) :
    List (TaskEvent A K H V E) :=
  tr.filterMap fun a =>
    match a with
    | FinAction.queueRemove _ => none
    | FinAction.emitDone h => some (TaskEvent.done h)
    | FinAction.emitCancelled h => some (TaskEvent.cancelled h)
    | FinAction.emitReturned h v => some (TaskEvent.returned h v)
    | FinAction.emitException h e => some (TaskEvent.exception h e)

/-! ## Concrete fixtures

Instantiations of the embedding at `Nat` payload types, used to evaluate
the definitions at concrete inputs. -/

/-- A concrete no-plugin task (function code `10`). -/
def tNoPlugin : Task Nat Nat Nat Nat Nat :=
  { name := "t", uuid := 0, function := 10, scheduler := 0, plugins := [], queue := [] }

/-- A concrete backend that accepts every submission, handing out handle `7`. -/
def acceptBackend : Nat → Nat → Nat → Nat → Option Nat :=
  fun _ _ _ _ => some 7

/-- A concrete backend that rejects every submission. -/
def rejectBackend : Nat → Nat → Nat → Nat → Option Nat :=
  fun _ _ _ _ => none

/-- A plugin whose `pre_submit` always vetoes. -/
def vetoPlugin : Plugin Nat Nat Nat :=
  { name := "veto", preSubmit := fun _ _ _ => none }

/-- A plugin whose `pre_submit` increments the positional argument. -/
def incPlugin : Plugin Nat Nat Nat :=
  { name := "inc", preSubmit := fun fn a k => some (fn, a + 1, k) }

/-- The concrete task with the always-veto plugin attached. -/
def tVeto : Task Nat Nat Nat Nat Nat :=
  { tNoPlugin with plugins := [vetoPlugin] }

/-- The concrete task with two rewriting plugins attached. -/
def tInc2 : Task Nat Nat Nat Nat Nat :=
  { tNoPlugin with plugins := [incPlugin, incPlugin] }

/-- A concrete status function: every future completed with value `20`. -/
def valueStatus : Nat → FutureStatus Nat Nat :=
  fun _ => FutureStatus.value 20

/-- A concrete not-done predicate: no future is done. -/
def noneDone : Nat → Bool :=
  fun _ => false

/-! ## Helper lemmas -/

/-- Branch characterization of `Task.call` when the plugin chain vetoes. -/
theorem call_of_chain_none {F A K H S : Type} (t : Task F A K H S)
    (schedSubmit : S → F → A → K → Option H) (args : A) (kwargs : K)
    (hch : pluginChain t.plugins t.function args kwargs = none) :
    Task.call t schedSubmit args kwargs =
      ⟨none, t, pluginConsults t.plugins t.function args kwargs, []⟩ := by
  unfold Task.call
  rw [hch]

/-- Branch characterization of `Task.call` when the chain passes but the
backend rejects. -/
theorem call_of_backend_none {F A K H S : Type} (t : Task F A K H S)
    (schedSubmit : S → F → A → K → Option H) (args : A) (kwargs : K)
    (fn : F) (a : A) (k : K)
    (hch : pluginChain t.plugins t.function args kwargs = some (fn, a, k))
    (hb : schedSubmit t.scheduler fn a k = none) :
    Task.call t schedSubmit args kwargs =
      ⟨none, t, pluginConsults t.plugins t.function args kwargs,
       [SubAction.backendCall fn a k]⟩ := by
  unfold Task.call
  rw [hch]
  simp only [hb]

/-- Branch characterization of `Task.call` when the chain passes and the
backend accepts. -/
theorem call_of_backend_some {F A K H S : Type} (t : Task F A K H S)
    (schedSubmit : S → F → A → K → Option H) (args : A) (kwargs : K)
    (fn : F) (a : A) (k : K) (fut : H)
    (hch : pluginChain t.plugins t.function args kwargs = some (fn, a, k))
    (hb : schedSubmit t.scheduler fn a k = some fut) :
    Task.call t schedSubmit args kwargs =
      ⟨some fut, { t with queue := t.queue ++ [fut] },
       pluginConsults t.plugins t.function args kwargs,
       [SubAction.backendCall fn a k,
        SubAction.queueAppend fut,
        SubAction.emitSubmitted fut a k,
        SubAction.registerHook fut]⟩ := by
  unfold Task.call
  rw [hch]
  simp only [hb]

/-- If `Task.call` returns a handle, the chain passed and the backend
accepted with exactly that handle. -/
theorem call_ret_some {F A K H S : Type} (t : Task F A K H S)
    (schedSubmit : S → F → A → K → Option H) (args : A) (kwargs : K) (h : H)
    (hret : (Task.call t schedSubmit args kwargs).ret = some h) :
    ∃ fn a k, pluginChain t.plugins t.function args kwargs = some (fn, a, k) ∧
      schedSubmit t.scheduler fn a k = some h := by
  unfold Task.call at hret
  cases hch : pluginChain t.plugins t.function args kwargs with
  | none => rw [hch] at hret; simp at hret
  | some triple =>
    obtain ⟨fn, a, k⟩ := triple
    rw [hch] at hret
    cases hb : schedSubmit t.scheduler fn a k with
    | none => simp only [hb] at hret; simp at hret
    | some fut =>
      simp only [hb] at hret
      simp at hret
      refine ⟨fn, a, k, rfl, ?_⟩
      rw [hb, hret]

/-- The plugin chain over an appended list: run the first part, then thread
its output through the second part. -/
theorem pluginChain_append {F A K : Type} (xs ys : List (Plugin F A K))
    (fn : F) (a : A) (k : K) :
    pluginChain (xs ++ ys) fn a k =
      match pluginChain xs fn a k with
      | none => none
      | some (fn2, a2, k2) => pluginChain ys fn2 a2 k2 := by
  induction xs generalizing fn a k with
  | nil => simp [pluginChain]
  | cons p ps ih =>
    simp only [List.cons_append, pluginChain]
    cases p.preSubmit fn a k with
    | none => rfl
    | some triple =>
      obtain ⟨fn2, a2, k2⟩ := triple
      exact ih fn2 a2 k2

/-- Consultations over an appended list: consult the first part, and when
it passes, continue through the second part from the threaded triple. -/
theorem pluginConsults_append {F A K : Type} (xs ys : List (Plugin F A K))
    (fn : F) (a : A) (k : K) :
    pluginConsults (xs ++ ys) fn a k =
      pluginConsults xs fn a k ++
        match pluginChain xs fn a k with
        | none => []
        | some (fn2, a2, k2) => pluginConsults ys fn2 a2 k2 := by
  induction xs generalizing fn a k with
  | nil => simp [pluginConsults, pluginChain]
  | cons p ps ih =>
    simp only [List.cons_append, pluginConsults, pluginChain]
    cases p.preSubmit fn a k with
    | none => rfl
    | some triple =>
      obtain ⟨fn2, a2, k2⟩ := triple
      simp only [List.cons_append, List.cons.injEq, true_and]
      exact ih fn2 a2 k2

/-- When the chain passes, every plugin was consulted: the consultation
list has one entry per plugin. -/
theorem pluginConsults_length_of_chain_some {F A K : Type}
    (ps : List (Plugin F A K)) (fn : F) (a : A) (k : K) (out : F × A × K)
    (hch : pluginChain ps fn a k = some out) :
    (pluginConsults ps fn a k).length = ps.length := by
  induction ps generalizing fn a k with
  | nil => simp [pluginConsults]
  | cons p rest ih =>
    simp only [pluginChain] at hch
    cases hpre : p.preSubmit fn a k with
    | none => rw [hpre] at hch; exact absurd hch (by simp)
    | some triple =>
      obtain ⟨fn2, a2, k2⟩ := triple
      rw [hpre] at hch
      simp only [pluginConsults, hpre, List.length_cons]
      rw [ih fn2 a2 k2 hch]

/-- A vetoing plugin ends the consultation list: consultations of
`p :: rest` where `p` vetoes are just the one consult of `p`. -/
theorem pluginConsults_veto {F A K : Type} (p : Plugin F A K)
    (rest : List (Plugin F A K)) (fn : F) (a : A) (k : K)
    (hveto : p.preSubmit fn a k = none) :
    pluginConsults (p :: rest) fn a k = [(fn, a, k)] := by
  simp [pluginConsults, hveto]

/-- `removeFirst` deletes exactly one occurrence: the count of the removed
element drops by one when it was present. -/
theorem removeFirst_count {H : Type} [DecidableEq H] (q : List H) (h : H)
    (hmem : h ∈ q) : (removeFirst q h).count h + 1 = q.count h := by
  induction q with
  | nil => cases hmem
  | cons x xs ih =>
    by_cases hx : x = h
    · subst hx
      simp [removeFirst, List.count_cons]
    · have hxs : h ∈ xs := by
        cases List.mem_cons.mp hmem with
        | inl heq => exact absurd heq.symm hx
        | inr htail => exact htail
      simp only [removeFirst, if_neg hx, List.count_cons]
      rw [← ih hxs]
      simp [hx]

/-- Elements other than the removed one are preserved by `removeFirst`. -/
theorem removeFirst_count_ne {H : Type} [DecidableEq H] (q : List H) (h x : H)
    (hne : x ≠ h) : (removeFirst q h).count x = q.count x := by
  induction q with
  | nil => rfl
  | cons y ys ih =>
    by_cases hy : y = h
    · subst hy
      simp only [removeFirst, if_pos rfl, List.count_cons]
      have : ¬(y == x) = true := by
        simp only [beq_iff_eq]
        intro hyx
        exact hne (hyx ▸ rfl)
      simp [this]
    · simp only [removeFirst, if_neg hy, List.count_cons]
      rw [ih]

/-- After removing a handle that occurred exactly once, it is gone from the
queue. -/
theorem removeFirst_not_mem_of_count_one {H : Type} [DecidableEq H]
    (q : List H) (h : H) (hcount : q.count h = 1) :
    h ∉ removeFirst q h := by
  intro hmem
  have hmem0 : h ∈ q := by
    rw [← List.count_pos_iff]
    omega
  have := removeFirst_count q h hmem0
  have hpos : 0 < (removeFirst q h).count h := List.count_pos_iff.mpr hmem
  omega

/-- Removing a not-done handle that occurred exactly once lowers the
not-done filter count by exactly one. -/
theorem removeFirst_filter_length {H : Type} [DecidableEq H]
    (q : List H) (h : H) (p : H → Bool) (hmem : h ∈ q) (hp : p h = true) :
    ((removeFirst q h).filter p).length + 1 = (q.filter p).length := by
  induction q with
  | nil => cases hmem
  | cons x xs ih =>
    by_cases hx : x = h
    · subst hx
      simp [removeFirst, List.filter_cons, hp]
    · have hxs : h ∈ xs := by
        cases List.mem_cons.mp hmem with
        | inl heq => exact absurd heq.symm hx
        | inr htail => exact htail
      have hrec := ih hxs
      simp only [removeFirst, if_neg hx, List.filter_cons]
      cases hpx : p x with
      | true => simp [hpx]; omega
      | false => simpa [hpx] using hrec

/-- The consultation list recorded by `Task.call` is the plugin-loop
consultation list, in every branch. -/
theorem call_consulted {F A K H S : Type} (t : Task F A K H S)
    (schedSubmit : S → F → A → K → Option H) (args : A) (kwargs : K) :
    (Task.call t schedSubmit args kwargs).consulted =
      pluginConsults t.plugins t.function args kwargs := by
  unfold Task.call
  cases hch : pluginChain t.plugins t.function args kwargs with
  | none => rfl
  | some triple =>
    obtain ⟨fn, a, k⟩ := triple
    cases hb : schedSubmit t.scheduler fn a k with
    | none => simp only [hb]
    | some fut => simp only [hb]

/-- Threading property of the consultation list: when the chain passes with
output `out`, the triple consulted first is the original one, and the entry
after each consulted triple (with `out` appended as the final output) is
exactly what that plugin's `pre_submit` returned. -/
theorem pluginConsults_threading {F A K : Type} (ps : List (Plugin F A K))
    (fn : F) (a : A) (k : K) (out : F × A × K)
    (hch : pluginChain ps fn a k = some out) :
    (pluginConsults ps fn a k ++ [out])[0]? = some (fn, a, k) ∧
    ∀ i p, ps[i]? = some p →
      ∃ trip, (pluginConsults ps fn a k)[i]? = some trip ∧
        (pluginConsults ps fn a k ++ [out])[i + 1]? =
          p.preSubmit trip.1 trip.2.1 trip.2.2 := by
  induction ps generalizing fn a k with
  | nil =>
    simp only [pluginChain, Option.some.injEq] at hch
    subst hch
    refine ⟨rfl, ?_⟩
    intro i p hp
    simp at hp
  | cons p0 rest ih =>
    simp only [pluginChain] at hch
    cases hpre : p0.preSubmit fn a k with
    | none => rw [hpre] at hch; exact absurd hch (by simp)
    | some triple =>
      obtain ⟨fn2, a2, k2⟩ := triple
      rw [hpre] at hch
      have ihspec := ih fn2 a2 k2 hch
      constructor
      · simp [pluginConsults, hpre]
      · intro i p hp
        cases i with
        | zero =>
          simp only [List.getElem?_cons_zero, Option.some.injEq] at hp
          subst hp
          refine ⟨(fn, a, k), ?_, ?_⟩
          · simp [pluginConsults, hpre]
          · simp only [pluginConsults, hpre, List.cons_append,
              List.getElem?_cons_succ]
            rw [ihspec.1]
        | succ j =>
          simp only [List.getElem?_cons_succ] at hp
          obtain ⟨trip, htrip, hnext⟩ := ihspec.2 j p hp
          refine ⟨trip, ?_, ?_⟩
          · simp only [pluginConsults, hpre, List.getElem?_cons_succ]
            exact htrip
          · simp only [pluginConsults, hpre, List.cons_append,
              List.getElem?_cons_succ]
            exact hnext

/-! ## Claim theorems -/

/-- C2: if the plugin chain reaches a plugin that vetoes (after the earlier
plugins passed, threading the triple to `(fn2, a2, k2)`), then `submit`
returns `nil`, the task (in particular its queue) is unchanged, no events
fire, no backend call occurs, and exactly the plugins up to and including
the vetoing one were consulted. -/
theorem submit_veto_aborts {F A K H S V E : Type} (t : Task F A K H S)
    (schedSubmit : S → F → A → K → Option H) (args : A) (kwargs : K)
    (ps1 ps2 : List (Plugin F A K)) (p : Plugin F A K)
    (fn2 : F) (a2 : A) (k2 : K)
    (hsplit : t.plugins = ps1 ++ p :: ps2)
    (hpass : pluginChain ps1 t.function args kwargs = some (fn2, a2, k2))
    (hveto : p.preSubmit fn2 a2 k2 = none) :
    (Task.call t schedSubmit args kwargs).ret = none ∧
    (Task.call t schedSubmit args kwargs).task = t ∧
    (Task.call t schedSubmit args kwargs).trace = [] ∧
    (subEvents (Task.call t schedSubmit args kwargs).trace :
      List (TaskEvent A K H V E)) = [] ∧
    (∀ f b c, SubAction.backendCall f b c ∉
      (Task.call t schedSubmit args kwargs).trace) ∧
    (Task.call t schedSubmit args kwargs).consulted.length = ps1.length + 1 := by
  have hchain : pluginChain t.plugins t.function args kwargs = none := by
    rw [hsplit, pluginChain_append, hpass]
    simp [pluginChain, hveto]
  have hcall := call_of_chain_none t schedSubmit args kwargs hchain
  rw [hcall]
  refine ⟨rfl, rfl, rfl, rfl, by simp, ?_⟩
  show (pluginConsults t.plugins t.function args kwargs).length = ps1.length + 1
  rw [hsplit, pluginConsults_append, hpass]
  simp only [pluginConsults_veto p ps2 fn2 a2 k2 hveto]
  rw [List.length_append,
    pluginConsults_length_of_chain_some ps1 t.function args kwargs _ hpass]
  rfl

/-- C2 witness: the always-veto plugin at concrete inputs. -/
theorem submit_veto_aborts_witness :
    (Task.call tVeto acceptBackend 1 2).ret = none ∧
    (Task.call tVeto acceptBackend 1 2).task = tVeto ∧
    (Task.call tVeto acceptBackend 1 2).trace = [] ∧
    (subEvents (Task.call tVeto acceptBackend 1 2).trace :
      List (TaskEvent Nat Nat Nat Nat Nat)) = [] ∧
    (∀ f b c, SubAction.backendCall f b c ∉
      (Task.call tVeto acceptBackend 1 2).trace) ∧
    (Task.call tVeto acceptBackend 1 2).consulted.length =
      ([] : List (Plugin Nat Nat Nat)).length + 1 :=
  submit_veto_aborts tVeto acceptBackend 1 2 [] [] vetoPlugin
    tVeto.function 1 2 rfl rfl rfl

/-- C3: when the chain passes with `(fn, a, k)` and the backend accepts
with handle `fut`, the call appends `fut` to the queue, performs — in
source order — the backend call, the queue append, the `submitted(fut, a, k)`
emission and the completion-hook registration, and returns `fut`. -/
theorem submit_accept_sequence {F A K H S : Type} (t : Task F A K H S)
    (schedSubmit : S → F → A → K → Option H) (args : A) (kwargs : K)
    (fn : F) (a : A) (k : K) (fut : H)
    (hch : pluginChain t.plugins t.function args kwargs = some (fn, a, k))
    (hb : schedSubmit t.scheduler fn a k = some fut) :
    (Task.call t schedSubmit args kwargs).ret = some fut ∧
    (Task.call t schedSubmit args kwargs).task.queue = t.queue ++ [fut] ∧
    (Task.call t schedSubmit args kwargs).trace =
      [SubAction.backendCall fn a k,
       SubAction.queueAppend fut,
       SubAction.emitSubmitted fut a k,
       SubAction.registerHook fut] := by
  rw [call_of_backend_some t schedSubmit args kwargs fn a k fut hch hb]
  exact ⟨rfl, rfl, rfl⟩

/-- C3 witness: the no-plugin task with the accepting backend. -/
theorem submit_accept_sequence_witness :
    (Task.call tNoPlugin acceptBackend 5 0).ret = some 7 ∧
    (Task.call tNoPlugin acceptBackend 5 0).task.queue = tNoPlugin.queue ++ [7] ∧
    (Task.call tNoPlugin acceptBackend 5 0).trace =
      [SubAction.backendCall 10 5 0,
       SubAction.queueAppend 7,
       SubAction.emitSubmitted 7 5 0,
       SubAction.registerHook 7] :=
  submit_accept_sequence tNoPlugin acceptBackend 5 0 10 5 0 7 rfl rfl

/-- C5: when the chain passes but the backend rejects, the call returns
`nil`, the task (hence its queue) is unchanged, no event fires, nothing is
appended to the queue and no completion hook is registered. -/
theorem submit_backend_reject {F A K H S V E : Type} (t : Task F A K H S)
    (schedSubmit : S → F → A → K → Option H) (args : A) (kwargs : K)
    (fn : F) (a : A) (k : K)
    (hch : pluginChain t.plugins t.function args kwargs = some (fn, a, k))
    (hb : schedSubmit t.scheduler fn a k = none) :
    (Task.call t schedSubmit args kwargs).ret = none ∧
    (Task.call t schedSubmit args kwargs).task = t ∧
    (subEvents (Task.call t schedSubmit args kwargs).trace :
      List (TaskEvent A K H V E)) = [] ∧
    (∀ x, SubAction.queueAppend x ∉ (Task.call t schedSubmit args kwargs).trace) ∧
    (∀ x, SubAction.registerHook x ∉ (Task.call t schedSubmit args kwargs).trace) := by
  rw [call_of_backend_none t schedSubmit args kwargs fn a k hch hb]
  refine ⟨rfl, rfl, rfl, ?_, ?_⟩
  · intro x; simp
  · intro x; simp

/-- C5 witness: the no-plugin task with the rejecting backend. -/
theorem submit_backend_reject_witness :
    (Task.call tNoPlugin rejectBackend 5 0).ret = none ∧
    (Task.call tNoPlugin rejectBackend 5 0).task = tNoPlugin ∧
    (subEvents (Task.call tNoPlugin rejectBackend 5 0).trace :
      List (TaskEvent Nat Nat Nat Nat Nat)) = [] ∧
    (∀ x, SubAction.queueAppend x ∉ (Task.call tNoPlugin rejectBackend 5 0).trace) ∧
    (∀ x, SubAction.registerHook x ∉ (Task.call tNoPlugin rejectBackend 5 0).trace) :=
  submit_backend_reject tNoPlugin rejectBackend 5 0 10 5 0 rfl rfl

/-- C4: the finalizer removes the handle from the queue exactly once (the
count of the handle drops by one, other handles are untouched) when the
handle is present; when it is absent, the finalizer raises the fatal
internal-consistency error — and then no `(state, events)` pair is
produced, so no lifecycle event is emitted. -/
theorem finalize_removes_once_or_raises {F A K H S V E : Type} [DecidableEq H]
    (t : Task F A K H S) (h : H) (status : H → FutureStatus V E) :
    (h ∈ t.queue →
      ∃ t2 ftr, t.processFuture h status = Except.ok (t2, ftr) ∧
        t2.queue.count h + 1 = t.queue.count h ∧
        ∀ x, x ≠ h → t2.queue.count x = t.queue.count x) ∧
    (h ∉ t.queue →
      t.processFuture h status =
        Except.error "future not found in task queue") := by
  constructor
  · intro hmem
    unfold Task.processFuture
    rw [if_pos hmem]
    have hco := removeFirst_count t.queue h hmem
    have hcne := fun x hx => removeFirst_count_ne t.queue h x hx
    cases status h with
    | cancelled => exact ⟨_, _, rfl, hco, hcne⟩
    | error e => exact ⟨_, _, rfl, hco, hcne⟩
    | value v => exact ⟨_, _, rfl, hco, hcne⟩
  · intro hmem
    unfold Task.processFuture
    rw [if_neg hmem]

/-- C4 witness: a task whose queue holds handle `7` once, finalized at `7`,
with the membership hypothesis discharged concretely. -/
theorem finalize_removes_once_or_raises_witness :
    ∃ t2 ftr,
      Task.processFuture { tNoPlugin with queue := [7] } 7 valueStatus =
        Except.ok (t2, ftr) ∧
      t2.queue.count 7 + 1 =
        ({ tNoPlugin with queue := [7] } : Task Nat Nat Nat Nat Nat).queue.count 7 ∧
      ∀ x, x ≠ 7 → t2.queue.count x =
        ({ tNoPlugin with queue := [7] } : Task Nat Nat Nat Nat Nat).queue.count x :=
  (finalize_removes_once_or_raises
    { tNoPlugin with queue := [7] } 7 valueStatus).1 (by decide)

/-- C10: when the finalized handle occurs exactly once in the queue, the
finalizer succeeds; the first action of its trace is the queue removal and
every later action is an event emission, so every emission happens after
the removal; the post-state queue no longer contains the handle, and when
the handle counted as running, `n_running` drops by exactly one. -/
theorem finalize_removes_before_emitting {F A K H S V E : Type} [DecidableEq H]
    (t : Task F A K H S) (h : H) (status : H → FutureStatus V E)
    (hcount : t.queue.count h = 1) :
    ∃ t2 ftr, t.processFuture h status = Except.ok (t2, ftr) ∧
      ftr[0]? = some (FinAction.queueRemove h) ∧
      (∀ act ∈ ftr.tail, act.isEmit = true) ∧
      h ∉ t2.queue ∧
      ∀ isDone : H → Bool, isDone h = false →
        t2.nRunning isDone + 1 = t.nRunning isDone := by
  have hmem : h ∈ t.queue := by
    rw [← List.count_pos_iff]
    omega
  have hout : h ∉ removeFirst t.queue h :=
    removeFirst_not_mem_of_count_one t.queue h hcount
  have hrun : ∀ isDone : H → Bool, isDone h = false →
      ((removeFirst t.queue h).filter (fun f => !(isDone f))).length + 1 =
        (t.queue.filter (fun f => !(isDone f))).length := by
    intro isDone hd
    exact removeFirst_filter_length t.queue h _ hmem (by rw [hd]; rfl)
  unfold Task.processFuture
  rw [if_pos hmem]
  cases status h with
  | cancelled =>
    refine ⟨_, _, rfl, rfl, ?_, hout, hrun⟩
    intro act hact
    simp only [List.tail_cons] at hact
    fin_cases hact
    rfl
  | error e =>
    refine ⟨_, _, rfl, rfl, ?_, hout, hrun⟩
    intro act hact
    simp only [List.tail_cons] at hact
    fin_cases hact <;> rfl
  | value v =>
    refine ⟨_, _, rfl, rfl, ?_, hout, hrun⟩
    intro act hact
    simp only [List.tail_cons] at hact
    fin_cases hact <;> rfl

/-- C10 witness: queue `[7]`, value outcome, nothing done yet. -/
theorem finalize_removes_before_emitting_witness :
    ∃ t2 ftr,
      Task.processFuture { tNoPlugin with queue := [7] } 7 valueStatus =
        Except.ok (t2, ftr) ∧
      ftr[0]? = some (FinAction.queueRemove 7) ∧
      (∀ act ∈ ftr.tail, act.isEmit = true) ∧
      7 ∉ t2.queue ∧
      ∀ isDone : Nat → Bool, isDone 7 = false →
        t2.nRunning isDone + 1 =
          Task.nRunning { tNoPlugin with queue := [7] } isDone :=
  finalize_removes_before_emitting { tNoPlugin with queue := [7] } 7 valueStatus
    (by decide)

/-- C1: for every handle returned by a submission, finalizing it emits, in
order, exactly one of the three sequences
`[submitted, done, returned]`, `[submitted, done, exception]`,
`[submitted, cancelled]` — with `done` before `returned`/`exception`,
`cancelled` excluding the other three, and no duplicated event. -/
theorem handle_lifecycle_sequences {F A K H S V E : Type} [DecidableEq H]
    (t : Task F A K H S) (schedSubmit : S → F → A → K → Option H)
    (args : A) (kwargs : K) (status : H → FutureStatus V E) (h : H)
    (hret : (Task.call t schedSubmit args kwargs).ret = some h) :
    ∃ t2 ftr,
      (Task.call t schedSubmit args kwargs).task.processFuture h status =
        Except.ok (t2, ftr) ∧
      ∃ a k evs,
        subEvents (Task.call t schedSubmit args kwargs).trace ++ finEvents ftr
          = evs ∧
        ((∃ v, evs = [TaskEvent.submitted h a k, TaskEvent.done h,
                      TaskEvent.returned h v]) ∨
         (∃ e, evs = [TaskEvent.submitted h a k, TaskEvent.done h,
                      TaskEvent.exception h e]) ∨
         evs = [TaskEvent.submitted h a k, TaskEvent.cancelled h]) ∧
        evs.Nodup := by
  obtain ⟨fn, a, k, hch, hb⟩ := call_ret_some t schedSubmit args kwargs h hret
  rw [call_of_backend_some t schedSubmit args kwargs fn a k h hch hb]
  dsimp only
  have hmem : h ∈ t.queue ++ [h] := by simp
  unfold Task.processFuture
  dsimp only
  rw [if_pos hmem]
  cases status h with
  | cancelled =>
    refine ⟨_, _, rfl, a, k,
      [TaskEvent.submitted h a k, TaskEvent.cancelled h],
      ?_, Or.inr (Or.inr rfl), ?_⟩
    · simp [subEvents, finEvents]
    · simp
  | error e =>
    refine ⟨_, _, rfl, a, k,
      [TaskEvent.submitted h a k, TaskEvent.done h, TaskEvent.exception h e],
      ?_, Or.inr (Or.inl ⟨e, rfl⟩), ?_⟩
    · simp [subEvents, finEvents]
    · simp
  | value v =>
    refine ⟨_, _, rfl, a, k,
      [TaskEvent.submitted h a k, TaskEvent.done h, TaskEvent.returned h v],
      ?_, Or.inl ⟨v, rfl⟩, ?_⟩
    · simp [subEvents, finEvents]
    · simp

/-- C1 witness: the no-plugin task, accepting backend, value outcome. -/
theorem handle_lifecycle_sequences_witness :
    ∃ t2 ftr,
      (Task.call tNoPlugin acceptBackend 5 0).task.processFuture 7 valueStatus =
        Except.ok (t2, ftr) ∧
      ∃ a k evs,
        subEvents (Task.call tNoPlugin acceptBackend 5 0).trace ++ finEvents ftr
          = evs ∧
        ((∃ v, evs = [TaskEvent.submitted 7 a k, TaskEvent.done 7,
                      TaskEvent.returned 7 v]) ∨
         (∃ e, evs = [TaskEvent.submitted 7 a k, TaskEvent.done 7,
                      TaskEvent.exception 7 e]) ∨
         evs = [TaskEvent.submitted 7 a k, TaskEvent.cancelled 7]) ∧
        evs.Nodup :=
  handle_lifecycle_sequences tNoPlugin acceptBackend 5 0 valueStatus 7 rfl

/-- C7: when all plugins pass, each plugin is consulted exactly once in
attachment order (one consultation per plugin), the first consultation
receives `(self.function, args, kwargs)`, each later consultation receives
exactly the replacement triple returned by the previous plugin, the last
plugin's output is the chain's output `out`, and the backend is dispatched
with precisely `out`. -/
theorem plugin_order_and_threading {F A K H S : Type} (t : Task F A K H S)
    (schedSubmit : S → F → A → K → Option H) (args : A) (kwargs : K)
    (out : F × A × K)
    (hch : pluginChain t.plugins t.function args kwargs = some out) :
    (Task.call t schedSubmit args kwargs).consulted.length = t.plugins.length ∧
    ((Task.call t schedSubmit args kwargs).consulted ++ [out])[0]? =
      some (t.function, args, kwargs) ∧
    (∀ i p, t.plugins[i]? = some p →
      ∃ trip, (Task.call t schedSubmit args kwargs).consulted[i]? = some trip ∧
        ((Task.call t schedSubmit args kwargs).consulted ++ [out])[i + 1]? =
          p.preSubmit trip.1 trip.2.1 trip.2.2) ∧
    (Task.call t schedSubmit args kwargs).trace[0]? =
      some (SubAction.backendCall out.1 out.2.1 out.2.2) := by
  have hthread := pluginConsults_threading t.plugins t.function args kwargs out hch
  rw [call_consulted t schedSubmit args kwargs]
  refine ⟨pluginConsults_length_of_chain_some t.plugins t.function args kwargs
    out hch, hthread.1, hthread.2, ?_⟩
  obtain ⟨fn, a, k⟩ := out
  cases hb : schedSubmit t.scheduler fn a k with
  | none =>
    rw [call_of_backend_none t schedSubmit args kwargs fn a k hch hb]
    rfl
  | some fut =>
    rw [call_of_backend_some t schedSubmit args kwargs fn a k fut hch hb]
    rfl

/-- C7 witness: two incrementing plugins threading `(10, 3, 0)` through to
`(10, 5, 0)`. -/
theorem plugin_order_and_threading_witness :
    (Task.call tInc2 acceptBackend 3 0).consulted.length = tInc2.plugins.length ∧
    ((Task.call tInc2 acceptBackend 3 0).consulted ++ [(10, 5, 0)])[0]? =
      some (tInc2.function, 3, 0) ∧
    (∀ i p, tInc2.plugins[i]? = some p →
      ∃ trip, (Task.call tInc2 acceptBackend 3 0).consulted[i]? = some trip ∧
        ((Task.call tInc2 acceptBackend 3 0).consulted ++ [(10, 5, 0)])[i + 1]? =
          p.preSubmit trip.1 trip.2.1 trip.2.2) ∧
    (Task.call tInc2 acceptBackend 3 0).trace[0]? =
      some (SubAction.backendCall 10 5 0) :=
  plugin_order_and_threading tInc2 acceptBackend 3 0 (10, 5, 0) rfl

/-- C8: `copy` yields a task with the same function, scheduler reference
and name, with `pcopy` (the plugin clone operation) applied to each plugin,
an empty queue, and — because its uuid is fresh — a distinct unique
reference, so no subscription registered under the original's namespace
fires for an emission from the copy. -/
theorem task_copy_independent_namespace {F A K H S : Type} (t : Task F A K H S)
    (pcopy : Plugin F A K → Plugin F A K) (u : Nat) (hu : u ≠ t.uuid) :
    (Task.copy t pcopy u : Task F A K H S).function = t.function ∧
    (Task.copy t pcopy u : Task F A K H S).scheduler = t.scheduler ∧
    (Task.copy t pcopy u : Task F A K H S).name = t.name ∧
    (Task.copy t pcopy u : Task F A K H S).plugins = t.plugins.map pcopy ∧
    (Task.copy t pcopy u : Task F A K H S).queue = [] ∧
    (Task.copy t pcopy u : Task F A K H S).uniqueRef ≠ t.uniqueRef ∧
    ∀ sub : Subscription, sub.ref = t.uniqueRef →
      ¬ firesFor sub (Task.copy t pcopy u : Task F A K H S).uniqueRef := by
  refine ⟨rfl, rfl, rfl, rfl, rfl, ?_, ?_⟩
  · intro heq
    exact hu (congrArg Prod.snd heq)
  · intro sub hsub hfire
    rw [firesFor, hsub] at hfire
    exact hu (congrArg Prod.snd hfire.symm)

/-- C8 witness: copying the concrete task with a fresh uuid `1`. -/
theorem task_copy_independent_namespace_witness :
    (Task.copy tNoPlugin id 1 : Task Nat Nat Nat Nat Nat).function =
      tNoPlugin.function ∧
    (Task.copy tNoPlugin id 1 : Task Nat Nat Nat Nat Nat).scheduler =
      tNoPlugin.scheduler ∧
    (Task.copy tNoPlugin id 1 : Task Nat Nat Nat Nat Nat).name = tNoPlugin.name ∧
    (Task.copy tNoPlugin id 1 : Task Nat Nat Nat Nat Nat).plugins =
      tNoPlugin.plugins.map id ∧
    (Task.copy tNoPlugin id 1 : Task Nat Nat Nat Nat Nat).queue = [] ∧
    (Task.copy tNoPlugin id 1 : Task Nat Nat Nat Nat Nat).uniqueRef ≠
      tNoPlugin.uniqueRef ∧
    ∀ sub : Subscription, sub.ref = tNoPlugin.uniqueRef →
      ¬ firesFor sub (Task.copy tNoPlugin id 1 : Task Nat Nat Nat Nat Nat).uniqueRef :=
  task_copy_independent_namespace tNoPlugin id 1 (by decide)

/-- C9: a submission never mutates the task's stored function or plugin
list, only ever appends to the queue (already-submitted handles stay), and
any subsequent submission consults the plugins starting again from the
original stored function. -/
theorem plugin_rewrite_current_submission_only {F A K H S : Type}
    (t : Task F A K H S) (schedSubmit : S → F → A → K → Option H)
    (args : A) (kwargs : K) :
    (Task.call t schedSubmit args kwargs).task.function = t.function ∧
    (Task.call t schedSubmit args kwargs).task.plugins = t.plugins ∧
    (∃ s, (Task.call t schedSubmit args kwargs).task.queue = t.queue ++ s) ∧
    ∀ (sched2 : S → F → A → K → Option H) (args2 : A) (kwargs2 : K),
      (Task.call (Task.call t schedSubmit args kwargs).task
        sched2 args2 kwargs2).consulted =
          pluginConsults t.plugins t.function args2 kwargs2 := by
  cases hch : pluginChain t.plugins t.function args kwargs with
  | none =>
    rw [call_of_chain_none t schedSubmit args kwargs hch]
    exact ⟨rfl, rfl, ⟨[], by simp⟩,
      fun sched2 args2 kwargs2 => call_consulted t sched2 args2 kwargs2⟩
  | some triple =>
    obtain ⟨fn, a, k⟩ := triple
    cases hb : schedSubmit t.scheduler fn a k with
    | none =>
      rw [call_of_backend_none t schedSubmit args kwargs fn a k hch hb]
      exact ⟨rfl, rfl, ⟨[], by simp⟩,
        fun sched2 args2 kwargs2 => call_consulted t sched2 args2 kwargs2⟩
    | some fut =>
      rw [call_of_backend_some t schedSubmit args kwargs fn a k fut hch hb]
      exact ⟨rfl, rfl, ⟨[fut], rfl⟩,
        fun sched2 args2 kwargs2 =>
          call_consulted { t with queue := t.queue ++ [fut] } sched2 args2 kwargs2⟩

/-- C6 counterexample: at a concrete accepted submission, the very next
operation after obtaining the handle from the backend is the queue append —
not the completion-hook registration, contradicting the claim that no
other operation occurs between obtaining the handle and registering the
hook. -/
theorem submit_hook_not_immediate_cex :
    (Task.call tNoPlugin acceptBackend 5 0).trace[0]? =
      some (SubAction.backendCall 10 5 0) ∧
    (Task.call tNoPlugin acceptBackend 5 0).trace[1]? =
      some (SubAction.queueAppend 7) ∧
    ((SubAction.queueAppend 7 : SubAction Nat Nat Nat Nat) ≠
      SubAction.registerHook 7) ∧
    ∀ x, (Task.call tNoPlugin acceptBackend 5 0).trace[1]? ≠
      some (SubAction.registerHook x) := by
  refine ⟨rfl, rfl, by decide, ?_⟩
  intro x hx
  have : (SubAction.queueAppend 7 : SubAction Nat Nat Nat Nat) =
      SubAction.registerHook x := by
    have h0 : ((some (SubAction.queueAppend 7) :
        Option (SubAction Nat Nat Nat Nat))) = some (SubAction.registerHook x) := hx
    exact Option.some.inj h0
  exact absurd this (by simp)

/-- C6 amended: between obtaining the handle and registering the completion
hook, the call performs exactly the queue append and the `submitted`
emission; hook registration is the final action of the submission, with
nothing after it before the handle is returned. -/
theorem submit_hook_registered_last {F A K H S : Type} (t : Task F A K H S)
    (schedSubmit : S → F → A → K → Option H) (args : A) (kwargs : K)
    (fn : F) (a : A) (k : K) (fut : H)
    (hch : pluginChain t.plugins t.function args kwargs = some (fn, a, k))
    (hb : schedSubmit t.scheduler fn a k = some fut) :
    ∃ pre, (Task.call t schedSubmit args kwargs).trace =
        pre ++ [SubAction.registerHook fut] ∧
      pre = [SubAction.backendCall fn a k, SubAction.queueAppend fut,
             SubAction.emitSubmitted fut a k] ∧
      SubAction.registerHook fut ∉ pre := by
  rw [call_of_backend_some t schedSubmit args kwargs fn a k fut hch hb]
  refine ⟨[SubAction.backendCall fn a k, SubAction.queueAppend fut,
    SubAction.emitSubmitted fut a k], rfl, rfl, ?_⟩
  simp

/-- C6 amended witness: the concrete accepted submission. -/
theorem submit_hook_registered_last_witness :
    ∃ pre, (Task.call tNoPlugin acceptBackend 5 0).trace =
        pre ++ [SubAction.registerHook 7] ∧
      pre = [SubAction.backendCall 10 5 0, SubAction.queueAppend 7,
             SubAction.emitSubmitted 7 5 0] ∧
      SubAction.registerHook 7 ∉ pre :=
  submit_hook_registered_last tNoPlugin acceptBackend 5 0 10 5 0 7 rfl rfl

end Amltk
